import Mathlib

/-!
Verification of the influence-graph engine (`src/lib/influence-engine.ts`) and of
the score-recalculation pipeline (`src/app/api/influence/recalculate/route.ts`).

Modelling conventions
* JavaScript `Map` objects are insertion-ordered; they are modelled as
  association lists: `aset` updates an existing key in place and appends a fresh
  key at the end, exactly like `Map.prototype.set`, and iteration (`forEach`,
  `keys()`) is list order.
* Edge weights and scores are modelled by `ℚ` (the algorithms use only field
  operations and comparisons).  The time-decay function raises a real base to a
  real exponent (`Math.pow`), so it alone is modelled over `ℝ`.
* Timestamps (`Date.now()`, `createdAt.getTime()`) are milliseconds as `ℤ`,
  passed explicitly where the source reads the ambient clock.
* The breadth-first propagation loop runs on explicit fuel; `propagationFuel`
  computes a bound on the number of iterations, and the theorem for the
  termination claim proves that any extra fuel beyond this bound is unused
  (the queue empties first), which is the termination argument of the source.
-/

/-- Lookup in an insertion-ordered association list (model of `Map.prototype.get`). -/
def aget {α β : Type} [DecidableEq α] : List (α × β) → α → Option β
  | [], _ => none
  | (k, v) :: rest, key => if k = key then some v else aget rest key

/-- Model of `Map.prototype.set`: update an existing key in place, else append. -/
def aset {α β : Type} [DecidableEq α] : List (α × β) → α → β → List (α × β)
  | [], key, val => [(key, val)]
  | (k, v) :: rest, key, val =>
    if k = key then (key, val) :: rest else (k, v) :: aset rest key val

/-- Model of `Map.prototype.delete` (keys are unique in a `Map`). -/
def adel {α β : Type} [DecidableEq α] : List (α × β) → α → List (α × β)
  | [], _ => []
  | (k, v) :: rest, key => if k = key then rest else (k, v) :: adel rest key

/-- `InfluenceEdge` of `influence-engine.ts` (`createdAt` as epoch milliseconds). -/
structure InfluenceEdge where
  id : String
  sourceUserId : String
  targetUserId : String
  weight : ℚ
  context : Option String
  createdAtMs : ℤ
deriving DecidableEq

/-- `InfluenceNode` of `influence-engine.ts`. -/
structure InfluenceNode where
  id : String
  name : String
  score : ℚ
  rawScore : ℚ
  volatility : ℚ
deriving DecidableEq

/-- `InfluencePath` of `influence-engine.ts`. -/
structure InfluencePath where
  path : List String
  weight : ℚ
  depth : ℕ
deriving DecidableEq

/-- `PropagationResult` of `influence-engine.ts`. -/
structure PropagationResult where
  nodeId : String
  directInfluence : ℚ
  propagatedInfluence : ℚ
  totalInfluence : ℚ
  paths : List InfluencePath
deriving DecidableEq

/-- An element of the BFS queue in `propagateFromNode`. -/
structure QueueEntry where
  nodeId : String
  weight : ℚ
  path : List String
  depth : ℕ
deriving DecidableEq

/-- `PROPAGATION_CONFIG.MAX_DEPTH`. -/
def MAX_DEPTH : ℕ := 3

/-- `PROPAGATION_CONFIG.DECAY_FACTOR` (0.6). -/
def DECAY_FACTOR : ℚ := 3/5

/-- `PROPAGATION_CONFIG.MIN_WEIGHT_THRESHOLD` (0.01). -/
def MIN_WEIGHT_THRESHOLD : ℚ := 1/100

/-- One step of `buildAdjacencyList`'s loop: `set(src, [])` for an unseen source
appends the entry at the end of the `Map`, and `get(src)!.push(edge)` appends
the edge to that entry's array in place. -/
def adjPush (m : List (String × List InfluenceEdge)) (e : InfluenceEdge) :
    List (String × List InfluenceEdge) :=
  match aget m e.sourceUserId with
  | none => m ++ [(e.sourceUserId, [e])]
  | some l => aset m e.sourceUserId (l ++ [e])

/-- `buildAdjacencyList` of `influence-engine.ts`. -/
def buildAdjacencyList (edges : List InfluenceEdge) : List (String × List InfluenceEdge) :=
  edges.foldl adjPush []

/-- The queue entries pushed when the BFS visits `cur`: one per outgoing edge,
with the decayed carried weight, pruned below `MIN_WEIGHT_THRESHOLD`
(the `for (const edge of neighbors)` body of `propagateFromNode`). -/
def pushCandidates (neighbors : List InfluenceEdge) (cur : QueueEntry)
    (decayFactor : ℚ) : List QueueEntry :=
  neighbors.filterMap fun e =>
    let w := cur.weight * (e.weight / 100) * decayFactor
    if w < MIN_WEIGHT_THRESHOLD then none
    else some ⟨e.targetUserId, w, cur.path ++ [e.targetUserId], cur.depth + 1⟩

/-- The `while (queue.length > 0)` loop of `propagateFromNode`, on explicit
fuel (one unit per iteration; `propagationFuel` below always suffices, as
proved for the termination claim).  A dequeued entry of positive depth is
recorded in `paths` and added to `propagatedInfluence`; entries at
`depth ≥ maxDepth` are not expanded.  The source also declares a `visited`
set but never reads it, so it has no observable effect and is not modelled. -/
def bfsLoop (adj : List (String × List InfluenceEdge)) (maxDepth : ℕ) (decayFactor : ℚ) :
    ℕ → List QueueEntry → List InfluencePath → ℚ → List InfluencePath × ℚ
  | 0, _, paths, prop => (paths, prop)
  | _ + 1, [], paths, prop => (paths, prop)
  | fuel + 1, cur :: rest, paths, prop =>
    let paths' := if 0 < cur.depth then paths ++ [⟨cur.path, cur.weight, cur.depth⟩] else paths
    let prop' := if 0 < cur.depth then prop + cur.weight else prop
    if maxDepth ≤ cur.depth then
      bfsLoop adj maxDepth decayFactor fuel rest paths' prop'
    else
      bfsLoop adj maxDepth decayFactor fuel
        (rest ++ pushCandidates ((aget adj cur.nodeId).getD []) cur decayFactor)
        paths' prop'

/-- The largest out-degree appearing in the adjacency list. -/
def outDegBound (adj : List (String × List InfluenceEdge)) : ℕ :=
  adj.foldl (fun m p => max m p.2.length) 0

/-- Fuel charged to one queue entry: the loop dequeues it and, over all later
iterations, at most `B` successors per level down to `maxDepth`. -/
def entryFuel (B maxDepth : ℕ) (e : QueueEntry) : ℕ :=
  (B + 1) ^ (maxDepth + 1 - e.depth)

/-- Fuel charged to a whole queue. -/
def queueFuel (B maxDepth : ℕ) (q : List QueueEntry) : ℕ :=
  (q.map (entryFuel B maxDepth)).sum

/-- The BFS start entry: the source node, carried weight `1.0`, depth `0`. -/
def initEntry (sourceId : String) : QueueEntry :=
  ⟨sourceId, 1, [sourceId], 0⟩

/-- Fuel allotted to the traversal from `sourceId`. -/
def propagationFuel (adj : List (String × List InfluenceEdge)) (maxDepth : ℕ)
    (sourceId : String) : ℕ :=
  queueFuel (outDegBound adj) maxDepth [initEntry sourceId]

/-- The BFS traversal from `sourceId` with a given amount of fuel. -/
def bfsRun (adj : List (String × List InfluenceEdge)) (maxDepth : ℕ) (decayFactor : ℚ)
    (fuel : ℕ) (sourceId : String) : List InfluencePath × ℚ :=
  bfsLoop adj maxDepth decayFactor fuel [initEntry sourceId] [] 0

/-- `propagateFromNode` of `influence-engine.ts`: BFS contributions plus the
direct influence (sum of the source's raw outgoing edge weights). -/
def propagateFromNode (sourceId : String) (adj : List (String × List InfluenceEdge))
    (maxDepth : ℕ) (decayFactor : ℚ) : PropagationResult :=
  let r := bfsRun adj maxDepth decayFactor (propagationFuel adj maxDepth sourceId) sourceId
  let directInfluence := ((aget adj sourceId).getD []).foldl (fun s e => s + e.weight) 0
  ⟨sourceId, directInfluence, r.2, directInfluence + r.2, r.1⟩

/-- `calculatePropagatedInfluence` of `influence-engine.ts`: one
`PropagationResult` per requested node id, keyed in a `Map`. -/
def calculatePropagatedInfluence (edges : List InfluenceEdge) (nodeIds : List String)
    (maxDepth : ℕ) (decayFactor : ℚ) : List (String × PropagationResult) :=
  let adjacencyList := buildAdjacencyList edges
  nodeIds.foldl
    (fun results nodeId =>
      aset results nodeId (propagateFromNode nodeId adjacencyList maxDepth decayFactor)) []

/-- `PROPAGATION_CONFIG.DEFAULT_DECAY_RATE` (0.05, five percent per day). -/
noncomputable def DEFAULT_DECAY_RATE : ℝ := 1/20

/-- `calculateDecayedWeight` of `influence-engine.ts`:
`originalWeight * (1 - decayRate) ^ daysElapsed` with
`daysElapsed = (Date.now() - createdAt.getTime()) / (1000*60*60*24)`.
`Math.pow` on real operands is `Real.rpow`; the ambient clock `Date.now()` is
the explicit argument `nowMs`.  The source performs no validation of
`decayRate` and no clamping of a negative elapsed time. -/
noncomputable def calculateDecayedWeight (originalWeight : ℝ) (createdAtMs : ℤ)
    (decayRate : ℝ) (nowMs : ℤ) : ℝ :=
  let daysElapsed : ℝ := ((nowMs : ℝ) - (createdAtMs : ℝ)) / (1000 * 60 * 60 * 24)
  originalWeight * (1 - decayRate) ^ daysElapsed

/-- `CacheEntry` of `InfluenceCache`: the stored value — a JavaScript value
that may be `null`, modelled by `Option V` with `none` for `null` — plus the
expiry and creation times. -/
structure CacheEntry (V : Type) where
  value : Option V
  expiresAt : ℤ
  createdAt : ℤ
deriving DecidableEq

/-- The state of `InfluenceCache`: the entry map and the hit/miss counters. -/
structure CacheState (V : Type) where
  entries : List (String × CacheEntry V)
  hits : ℕ
  misses : ℕ
deriving DecidableEq

/-- `InfluenceCache.get`: a missing key or an expired entry is a miss (`null`;
an expired entry is also evicted); otherwise the stored value is returned —
which is itself `null` exactly when `null` was stored. -/
def cacheGet {V : Type} (c : CacheState V) (key : String) (nowMs : ℤ) :
    Option V × CacheState V :=
  match aget c.entries key with
  | none => (none, ⟨c.entries, c.hits, c.misses + 1⟩)
  | some entry =>
    if entry.expiresAt < nowMs then
      (none, ⟨adel c.entries key, c.hits, c.misses + 1⟩)
    else
      (entry.value, ⟨c.entries, c.hits + 1, c.misses⟩)

/-- `InfluenceCache.set`: store unconditionally with `expiresAt = now + ttl`. -/
def cacheSet {V : Type} (c : CacheState V) (key : String) (value : Option V)
    (ttlMs nowMs : ℤ) : CacheState V :=
  ⟨aset c.entries key ⟨value, nowMs + ttlMs, nowMs⟩, c.hits, c.misses⟩

/-- `InfluenceCache.getOrSet`: `get` the key and return the result when it is
not `null` (`cached !== null`); otherwise invoke the factory, store its value
and return it.  The factory is modelled by the value it would produce, and the
third component records whether it was invoked. -/
def getOrSet {V : Type} (c : CacheState V) (key : String) (factoryVal : Option V)
    (ttlMs nowMs : ℤ) : Option V × CacheState V × Bool :=
  match cacheGet c key nowMs with
  | (some v, c1) => (some v, c1, false)
  | (none, c1) => (factoryVal, cacheSet c1 key factoryVal ttlMs nowMs, true)

/-- The literal pieces of `pattern.replace(/\*/g, '.*')`: the pattern split at
every `*`. -/
def splitStar : List Char → List (List Char)
  | [] => [[]]
  | c :: rest =>
    if c = '*' then [] :: splitStar rest
    else
      match splitStar rest with
      | p :: ps => (c :: p) :: ps
      | [] => [[c]]

/-- Boolean list-prefix test on characters. -/
def pfx : List Char → List Char → Bool
  | [], _ => true
  | _ :: _, [] => false
  | a :: as, b :: bs => a == b && pfx as bs

/-- The remainder of the haystack after the leftmost occurrence of `needle`,
if `needle` occurs at all. -/
def findPiece (needle : List Char) : List Char → Option (List Char)
  | [] => if needle.isEmpty then some [] else none
  | c :: rest =>
    if pfx needle (c :: rest) then some ((c :: rest).drop needle.length)
    else findPiece needle rest

/-- Leftmost sequential search of literal pieces: `true` exactly when the
pieces occur inside the key in order, possibly with gaps. -/
def matchPieces : List (List Char) → List Char → Bool
  | [], _ => true
  | p :: ps, k =>
    match findPiece p k with
    | none => false
    | some rest => matchPieces ps rest

/-- `new RegExp(pattern.replace(/\*/g, '.*')).test(key)` of
`InfluenceCache.deletePattern`, for patterns whose characters other than `*`
are regular-expression literals (as the engine's invalidation patterns are):
`test` searches unanchored, so it succeeds exactly when the literal pieces
occur in order anywhere inside the key, which the leftmost search
`matchPieces` decides. -/
def regexTest (pattern key : String) : Bool :=
  matchPieces (splitStar pattern.toList) key.toList

/-- `InfluenceCache.deletePattern`: iterate over the keys, delete every key
the regex matches, and return the number deleted.  (A JavaScript `Map`
iteration that deletes the current key still visits every entry once, so the
loop is one pass over the entries.) -/
def deletePattern {V : Type} (pattern : String) :
    List (String × V) → ℕ × List (String × V)
  | [] => (0, [])
  | (k, v) :: rest =>
    let r := deletePattern pattern rest
    if regexTest pattern k then (r.1 + 1, r.2) else (r.1, (k, v) :: r.2)

/-- Boolean list-suffix test on characters. -/
def sfx (p k : List Char) : Bool :=
  pfx p.reverse k.reverse

/-- Modelled from the spec (whole-key glob): after the leading literal piece,
the middle pieces are found in order and the final piece must close the key. -/
def globTail : List (List Char) → List Char → Bool
  | [], k => k.isEmpty
  | [p], k => sfx p k
  | p :: ps, k =>
    match findPiece p k with
    | none => false
    | some rest => globTail ps rest

/-- Modelled from the spec: `deletePattern(glob)` "deletes every key matching
a glob where `*` matches any substring" — whole-key glob matching, anchored at
both ends, for comparison with the code's unanchored `regexTest`. -/
def globMatch (pattern key : String) : Bool :=
  match splitStar pattern.toList with
  | [] => key.toList.isEmpty
  | [p] => p == key.toList
  | p :: ps => pfx p key.toList && globTail ps (key.toList.drop p.length)

/-- The selectable ranking metric of `findTopInfluencers`. -/
inductive Metric where
  | total
  | direct
  | propagated
  | volatility
deriving DecidableEq

/-- The comparison key of each metric's comparator `(a, b) => keyOf b - keyOf a`:
`direct` compares `score`, `propagated` compares `rawScore - score`,
`volatility` compares `volatility`, and the `default` branch (metric `total`)
compares `rawScore`. -/
def metricKey : Metric → InfluenceNode → ℚ
  | .direct, n => n.score
  | .propagated, n => n.rawScore - n.score
  | .volatility, n => n.volatility
  | .total, n => n.rawScore

/-- Stable insertion into a descending list: the element goes in front of the
first element whose key is not larger.  `sortDesc` inserts from the right, so
an element is always inserted among elements that came later in the input and
is placed before those with an equal key — the stable order. -/
def insertDesc {α : Type} (key : α → ℚ) (x : α) : List α → List α
  | [] => [x]
  | y :: ys => if key y ≤ key x then x :: y :: ys else y :: insertDesc key x ys

/-- The stable descending sort by `key`: the result ECMAScript specifies for
`[...nodes].sort((a, b) => key(b) - key(a))` (sorted by the comparator and
stable, which determines the output uniquely). -/
def sortDesc {α : Type} (key : α → ℚ) : List α → List α
  | [] => []
  | x :: xs => insertDesc key x (sortDesc key xs)

/-- `findTopInfluencers` of `influence-engine.ts`: copy, stable-sort descending
by the chosen metric, `slice(0, limit)`. -/
def findTopInfluencers (nodes : List InfluenceNode) (metric : Metric) (limit : ℕ) :
    List InfluenceNode :=
  (sortDesc (metricKey metric) nodes).take limit

/-- The unique initial labels of `detectCommunities`: `labelCounter++` per
node, in `nodeIds` order. -/
def initLabels (nodeIds : List String) : List (String × ℕ) :=
  (nodeIds.foldl (fun acc nid => (aset acc.1 nid acc.2, acc.2 + 1)) ([], 0)).1

/-- The weighted vote table a node sees: for each outgoing edge, the target's
label (`labels.get(target) || 0`) accumulates the edge's weight, in a `Map`
keyed by label (insertion order = first-encounter order). -/
def voteCounts (labels : List (String × ℕ)) (neighbors : List InfluenceEdge) :
    List (ℕ × ℚ) :=
  neighbors.foldl
    (fun counts e =>
      let lbl := (aget labels e.targetUserId).getD 0
      aset counts lbl ((aget counts lbl).getD 0 + e.weight)) []

/-- The body of the `labelCounts.forEach` loop of `detectCommunities`: update
the running best label on a strictly greater count. -/
def pickStep (acc : ℕ × ℚ) (p : ℕ × ℚ) : ℕ × ℚ :=
  if acc.2 < p.2 then (p.1, p.2) else acc

/-- The label selection of `detectCommunities`: running maximum starting at
`maxCount = 0` and `bestLabel = current`, over the table in insertion order. -/
def pickBest (counts : List (ℕ × ℚ)) (current : ℕ) : ℕ :=
  (counts.foldl pickStep (current, 0)).1

/-- The largest vote in a table, from a given starting maximum. -/
def voteMaxFrom (mx : ℚ) (counts : List (ℕ × ℚ)) : ℚ :=
  counts.foldl (fun m p => max m p.2) mx

/-- The largest vote in a table, floored at the loop's starting maximum 0. -/
def maxVote (counts : List (ℕ × ℚ)) : ℚ :=
  voteMaxFrom 0 counts

/-- One node's step inside an iteration of `detectCommunities`: nodes without
outgoing edges are skipped; otherwise the node is relabelled to `pickBest` of
its weighted votes and the `changed` flag is raised when the label differs
(`labels.get(nodeId) !== bestLabel`). -/
def lpaNode (adj : List (String × List InfluenceEdge))
    (acc : List (String × ℕ) × Bool) (nodeId : String) :
    List (String × ℕ) × Bool :=
  let neighbors := (aget adj nodeId).getD []
  if neighbors.isEmpty then acc
  else
    let best := pickBest (voteCounts acc.1 neighbors) ((aget acc.1 nodeId).getD 0)
    if aget acc.1 nodeId ≠ some best then (aset acc.1 nodeId best, true)
    else acc

/-- One full iteration over `nodeIds`: labels are updated in place, so later
nodes within the same iteration already see earlier nodes' new labels. -/
def lpaPass (adj : List (String × List InfluenceEdge)) (nodeIds : List String)
    (labels : List (String × ℕ)) : List (String × ℕ) × Bool :=
  nodeIds.foldl (lpaNode adj) (labels, false)

/-- The iteration loop of `detectCommunities`: up to `fuel` iterations (the
source caps at 10), stopping after the first iteration that changes nothing. -/
def lpaLoop (adj : List (String × List InfluenceEdge)) (nodeIds : List String) :
    ℕ → List (String × ℕ) → List (String × ℕ)
  | 0, labels => labels
  | n + 1, labels =>
    let r := lpaPass adj nodeIds labels
    if r.2 then lpaLoop adj nodeIds n r.1 else r.1

/-- `detectCommunities` of `influence-engine.ts`. -/
def detectCommunities (edges : List InfluenceEdge) (nodeIds : List String) :
    List (String × ℕ) :=
  lpaLoop (buildAdjacencyList edges) nodeIds 10 (initLabels nodeIds)

/-- Modelled from the spec: the claim's selection rule — the label with the
highest weighted vote wins, but "a tie in the maximal vote keeps the node's
current label". -/
def pickBestSpecTie (counts : List (ℕ × ℚ)) (current : ℕ) : ℕ :=
  match counts.filter (fun p => p.2 == maxVote counts) with
  | [(l, _)] => l
  | _ => current

/-- Modelled from the spec: `lpaNode` with the claim's tie-keeping selection. -/
def lpaNodeSpecTie (adj : List (String × List InfluenceEdge))
    (acc : List (String × ℕ) × Bool) (nodeId : String) :
    List (String × ℕ) × Bool :=
  let neighbors := (aget adj nodeId).getD []
  if neighbors.isEmpty then acc
  else
    let best := pickBestSpecTie (voteCounts acc.1 neighbors) ((aget acc.1 nodeId).getD 0)
    if aget acc.1 nodeId ≠ some best then (aset acc.1 nodeId best, true)
    else acc

/-- Modelled from the spec: one iteration under the tie-keeping rule. -/
def lpaPassSpecTie (adj : List (String × List InfluenceEdge)) (nodeIds : List String)
    (labels : List (String × ℕ)) : List (String × ℕ) × Bool :=
  nodeIds.foldl (lpaNodeSpecTie adj) (labels, false)

/-- Modelled from the spec: the loop under the tie-keeping rule. -/
def lpaLoopSpecTie (adj : List (String × List InfluenceEdge)) (nodeIds : List String) :
    ℕ → List (String × ℕ) → List (String × ℕ)
  | 0, labels => labels
  | n + 1, labels =>
    let r := lpaPassSpecTie adj nodeIds labels
    if r.2 then lpaLoopSpecTie adj nodeIds n r.1 else r.1

/-- Modelled from the spec: `detectCommunities` as the claim describes it,
with ties keeping the current label; identical to the code otherwise. -/
def detectCommunitiesSpecTie (edges : List InfluenceEdge) (nodeIds : List String) :
    List (String × ℕ) :=
  lpaLoopSpecTie (buildAdjacencyList edges) nodeIds 10 (initLabels nodeIds)

/-- `InfluenceEvent` of the recalculation pipeline: a one-shot score
adjustment.  `processedAt = none` models the SQL `NULL` of an unconsumed
event. -/
structure InfluenceEvent where
  id : String
  subjectUserId : String
  weightDelta : ℚ
  createdAtMs : ℤ
  processedAt : Option ℤ
deriving DecidableEq

/-- The state the recalculation route reads and writes: the organisation's
events and each user's TOTAL influence score row. -/
structure RecalcState where
  events : List InfluenceEvent
  scores : List (String × ℚ)
deriving DecidableEq

/-- Step 2 of the route: the events with `processedAt: null`. -/
def pendingEvents (events : List InfluenceEvent) : List InfluenceEvent :=
  events.filter (fun e => e.processedAt.isNone)

/-- Step 6 of the route: aggregate the pending events' deltas per user. -/
def eventImpact (pending : List InfluenceEvent) : List (String × ℚ) :=
  pending.foldl
    (fun m e => aset m e.subjectUserId ((aget m e.subjectUserId).getD 0 + e.weightDelta)) []

/-- Step 7's per-user score: the sum of the user's outgoing edge weights
(their `outgoingInfluence` rows), plus the propagated influence from step 5,
plus the event bonus, floored at 0 (`Math.max(0, newScore)`). -/
def newScoreFor (edges : List InfluenceEdge)
    (propagation : List (String × PropagationResult))
    (impact : List (String × ℚ)) (u : String) : ℚ :=
  let direct := (edges.filter (fun e => e.sourceUserId == u)).foldl
    (fun s e => s + e.weight) 0
  let prop := ((aget propagation u).map PropagationResult.propagatedInfluence).getD 0
  let bonus := (aget impact u).getD 0
  max 0 (direct + prop + bonus)

/-- One recalculation cycle (`POST /api/influence/recalculate`) at
`applyDecay = false`, `processEvents = true`: collect the pending events,
aggregate their deltas, run propagation at the default depth 3 and decay
factor 0.6, rewrite each listed user's existing TOTAL score row to the new
score (`updateMany` only writes rows that exist), and stamp `processedAt` on
exactly the events that were pending (step 8 updates by their ids).  The
route's rank and volatility outputs feed back into neither scores nor events
and are projected away; with `applyDecay = true` the route would first map
every edge weight through `calculateDecayedWeight`. -/
def recalculate (edges : List InfluenceEdge) (users : List String)
    (st : RecalcState) (nowMs : ℤ) : RecalcState :=
  let pending := pendingEvents st.events
  let impact := eventImpact pending
  let propagation := calculatePropagatedInfluence edges users 3 (3/5)
  let newScores := users.foldl
    (fun m u =>
      match aget m u with
      | some _ => aset m u (newScoreFor edges propagation impact u)
      | none => m) st.scores
  let ids := pending.map (fun e => e.id)
  let events' := st.events.map
    (fun e => if ids.contains e.id then
        ⟨e.id, e.subjectUserId, e.weightDelta, e.createdAtMs, some nowMs⟩ else e)
  ⟨events', newScores⟩

/-- C1: on edges A→B (weight 80) and B→C (weight 50) with `maxDepth = 3` and
`decayFactor = 0.6`, propagation from A has direct influence 80, records B at
weight 1·(80/100)·0.6 = 0.48 (= 12/25) at depth 1 and C at
0.48·(50/100)·0.6 = 0.144 (= 18/125) at depth 2, and total influence
80 + 0.48 + 0.144 = 80.624 (= 10078/125): each edge traversal multiplies the
carried weight by (edge weight / 100) · decayFactor. -/
theorem c1_propagation_scenario :
    aget (calculatePropagatedInfluence
        [⟨"eAB", "A", "B", 80, none, 0⟩, ⟨"eBC", "B", "C", 50, none, 0⟩]
        ["A", "B", "C"] 3 (3/5)) "A"
      = some ⟨"A", 80, 78/125, 10078/125,
          [⟨["A", "B"], 12/25, 1⟩, ⟨["A", "B", "C"], 18/125, 2⟩]⟩ := by
  norm_num +decide [calculatePropagatedInfluence, buildAdjacencyList, adjPush, aget, aset,
    propagateFromNode, bfsRun, bfsLoop, propagationFuel, queueFuel, entryFuel,
    outDegBound, initEntry, pushCandidates, MIN_WEIGHT_THRESHOLD, List.filterMap_cons]

/-- The exponent `daysElapsed` of `calculateDecayedWeight`, isolated. -/
theorem calculateDecayedWeight_eq (w : ℝ) (t : ℤ) (rate : ℝ) (now : ℤ) :
    calculateDecayedWeight w t rate now
      = w * (1 - rate) ^ (((now : ℝ) - (t : ℝ)) / 86400000) := by
  norm_num [calculateDecayedWeight]

/-- C3 counterexample: with `createdAt` one day in the future (relative to
`now = 0`) and rate 1/2, `calculateDecayedWeight` returns `10 · (1/2)⁻¹ = 20`,
strictly more than the original weight 10: there is no clamping of negative
elapsed time to zero. -/
theorem c3_future_date_counterexample :
    10 < calculateDecayedWeight 10 86400000 (1/2) 0
      ∧ calculateDecayedWeight 10 86400000 (1/2) 0 = 20 := by
  have h : calculateDecayedWeight 10 86400000 (1/2) 0 = 20 := by
    rw [calculateDecayedWeight_eq]
    have he : (((0 : ℤ) : ℝ) - ((86400000 : ℤ) : ℝ)) / 86400000 = ((-1 : ℤ) : ℝ) := by
      norm_num
    rw [he, Real.rpow_intCast]
    norm_num
  exact ⟨by rw [h]; norm_num, h⟩

/-- C3 as amended: `calculateDecayedWeight` computes
`w · (1-rate)^((now - createdAt)/day)` with no clamping: at `now = createdAt`
it returns `w`; for `rate ∈ (0,1)` and `w > 0` it is strictly decreasing in
the current time; and for `createdAt` in the future (negative elapsed time)
it strictly exceeds `w` instead of being capped at `w`. -/
theorem c3_decay_properties :
    (∀ (w rate : ℝ) (t : ℤ), calculateDecayedWeight w t rate t = w)
    ∧ (∀ (w rate : ℝ) (t n₁ n₂ : ℤ), 0 < w → 0 < rate → rate < 1 → n₁ < n₂ →
        calculateDecayedWeight w t rate n₂ < calculateDecayedWeight w t rate n₁)
    ∧ (∀ (w rate : ℝ) (t now : ℤ), 0 < w → 0 < rate → rate < 1 → now < t →
        w < calculateDecayedWeight w t rate now) := by
  refine ⟨?_, ?_, ?_⟩
  · intro w rate t
    rw [calculateDecayedWeight_eq]
    simp [Real.rpow_zero]
  · intro w rate t n₁ n₂ hw hr0 hr1 hn
    rw [calculateDecayedWeight_eq, calculateDecayedWeight_eq]
    have hb0 : (0 : ℝ) < 1 - rate := by linarith
    have hb1 : (1 : ℝ) - rate < 1 := by linarith
    have hexp : ((n₁ : ℝ) - (t : ℝ)) / 86400000 < ((n₂ : ℝ) - (t : ℝ)) / 86400000 := by
      have h1 : ((n₁ : ℝ)) < ((n₂ : ℝ)) := by exact_mod_cast hn
      have h2 : ((n₁ : ℝ) - (t : ℝ)) < ((n₂ : ℝ) - (t : ℝ)) := by linarith
      exact (div_lt_div_iff_of_pos_right (by norm_num)).mpr h2
    exact mul_lt_mul_of_pos_left
      (Real.rpow_lt_rpow_of_exponent_gt hb0 hb1 hexp) hw
  · intro w rate t now hw hr0 hr1 hn
    rw [calculateDecayedWeight_eq]
    have hb0 : (0 : ℝ) < 1 - rate := by linarith
    have hb1 : (1 : ℝ) - rate < 1 := by linarith
    have hexp : ((now : ℝ) - (t : ℝ)) / 86400000 < 0 := by
      have h1 : ((now : ℝ)) < ((t : ℝ)) := by exact_mod_cast hn
      apply div_neg_of_neg_of_pos (by linarith) (by norm_num)
    have h1 : (1 : ℝ) < (1 - rate) ^ (((now : ℝ) - (t : ℝ)) / 86400000) := by
      have := Real.rpow_lt_rpow_of_exponent_gt hb0 hb1 hexp
      rwa [Real.rpow_zero] at this
    nlinarith

/-- Witness for the amended decay claim: one elapsed day at rate 1/2 strictly
decreases the weight. -/
theorem c3_decay_properties_witness :
    calculateDecayedWeight 1 0 (1/2) 86400000 < calculateDecayedWeight 1 0 (1/2) 0 :=
  c3_decay_properties.2.1 1 (1/2) 0 0 86400000 (by norm_num) (by norm_num)
    (by norm_num) (by norm_num)

/-- C9 counterexample: the decay rate `-1` lies outside `[0,1)`, yet
`calculateDecayedWeight` raises no error: it returns the well-defined value
`10 · (1-(-1))^1 = 20` (the function is total and performs no validation). -/
theorem c9_rate_counterexample :
    calculateDecayedWeight 10 0 (-1) 86400000 = 20 := by
  rw [calculateDecayedWeight_eq]
  have he : (((86400000 : ℤ) : ℝ) - ((0 : ℤ) : ℝ)) / 86400000 = ((1 : ℤ) : ℝ) := by
    norm_num
  rw [he, Real.rpow_intCast]
  norm_num

/-- C9 as amended: `calculateDecayedWeight` performs no validation of the decay
rate.  Every rate, including rates outside `[0,1)`, is fed straight into
`w · (1-rate)^daysElapsed`; in particular a negative rate makes a positive
weight grow strictly with elapsed time instead of being rejected. -/
theorem c9_no_rate_validation (w rate : ℝ) (t now : ℤ)
    (hw : 0 < w) (hr : rate < 0) (ht : t < now) :
    w < calculateDecayedWeight w t rate now := by
  rw [calculateDecayedWeight_eq]
  have hb : (1 : ℝ) < 1 - rate := by linarith
  have hexp : (0 : ℝ) < ((now : ℝ) - (t : ℝ)) / 86400000 := by
    have h1 : ((t : ℝ)) < ((now : ℝ)) := by exact_mod_cast ht
    apply div_pos (by linarith) (by norm_num)
  have h1 : (1 : ℝ) < (1 - rate) ^ (((now : ℝ) - (t : ℝ)) / 86400000) := by
    have := Real.rpow_lt_rpow_of_exponent_lt hb hexp
    rwa [Real.rpow_zero] at this
  nlinarith

/-- Witness for the no-validation claim: rate `-1` (outside `[0,1)`) is
accepted and grows the weight. -/
theorem c9_no_rate_validation_witness :
    (10 : ℝ) < calculateDecayedWeight 10 0 (-1) 86400000 :=
  c9_no_rate_validation 10 (-1) 0 86400000 (by norm_num) (by norm_num) (by norm_num)

/-- Updating a key makes it present with the new value. -/
theorem aget_aset_self {α β : Type} [DecidableEq α] (m : List (α × β)) (k : α) (v : β) :
    aget (aset m k v) k = some v := by
  induction m with
  | nil => simp [aset, aget]
  | cons p rest ih =>
    obtain ⟨a, b⟩ := p
    by_cases h : a = k
    · simp [aset, aget, h]
    · simp [aset, aget, h, ih]

/-- `pfx` decides `List.IsPrefix`. -/
theorem pfx_iff (p k : List Char) : pfx p k = true ↔ p <+: k := by
  induction p generalizing k with
  | nil => simp [pfx, List.nil_prefix]
  | cons a as ih =>
    cases k with
    | nil => simp [pfx]
    | cons b bs => simp [pfx, List.cons_prefix_cons, ih]

/-- The empty piece occurs at the very start of any haystack. -/
theorem findPiece_nil (k : List Char) : findPiece [] k = some k := by
  cases k <;> simp [findPiece, pfx]

/-- `findPiece` succeeds exactly on infixes. -/
theorem findPiece_isSome_iff (p k : List Char) :
    (findPiece p k).isSome = true ↔ p <:+: k := by
  induction k with
  | nil =>
    cases p with
    | nil => simp [findPiece, List.infix_nil]
    | cons a as => simp [findPiece, List.infix_nil]
  | cons c rest ih =>
    by_cases h : pfx p (c :: rest) = true
    · simp only [findPiece, h, if_true, Option.isSome_some, true_iff]
      exact ((pfx_iff p (c :: rest)).mp h).isInfix
    · have hnp : ¬ p <+: (c :: rest) := fun hpre => h ((pfx_iff p (c :: rest)).mpr hpre)
      simp only [findPiece, h, if_false, Bool.false_eq_true, ih, List.infix_cons_iff]
      tauto

/-- Matching the two pieces of a trailing-star pattern is exactly finding the
single literal piece somewhere in the key. -/
theorem matchPieces_pair (p k : List Char) :
    matchPieces [p, []] k = (findPiece p k).isSome := by
  cases hf : findPiece p k with
  | none => simp [matchPieces, hf]
  | some rest => simp [matchPieces, hf, findPiece_nil]

/-- The pieces of the invalidation pattern `graph:org1*`. -/
theorem splitStar_graphOrg1 :
    splitStar ("graph:org1*".toList) = ["graph:org1".toList, []] := by decide

/-- C4 counterexample: on a cache holding keys `graph:org1:a`, `xgraph:org1:b`
and `graph:org2:c`, `deletePattern "graph:org1*"` deletes two keys — including
`xgraph:org1:b`, which does not match the glob `graph:org1*` (its prefix
differs) — because the code tests an unanchored regular expression.  This
refutes "deletes every key matching the glob and no other key". -/
theorem c4_substring_counterexample :
    deletePattern "graph:org1*"
        [("graph:org1:a", (0 : ℕ)), ("xgraph:org1:b", 1), ("graph:org2:c", 2)]
      = (2, [("graph:org2:c", 2)])
    ∧ globMatch "graph:org1*" "xgraph:org1:b" = false := by
  decide

/-- C4 as amended: `deletePattern` deletes exactly the keys in which the
pattern (each `*` matching any substring) occurs as an unanchored match —
a substring search, not whole-key glob matching — and returns their number;
in particular `deletePattern "graph:org1*"` removes exactly the keys that
contain `graph:org1` as a substring (not only those with that prefix). -/
theorem c4_deletePattern_behavior :
    (∀ (V : Type) (pattern : String) (entries : List (String × V)),
      deletePattern pattern entries
        = (entries.countP (fun kv => regexTest pattern kv.1),
           entries.filter (fun kv => !regexTest pattern kv.1)))
    ∧ ∀ key : String,
        regexTest "graph:org1*" key = true ↔ "graph:org1".toList <:+: key.toList := by
  constructor
  · intro V pattern entries
    induction entries with
    | nil => simp [deletePattern]
    | cons kv rest ih =>
      obtain ⟨k, v⟩ := kv
      by_cases h : regexTest pattern k = true
      · simp [deletePattern, h, ih, List.countP_cons, List.filter_cons]
      · simp [deletePattern, h, ih, List.countP_cons, List.filter_cons]
  · intro key
    rw [regexTest, splitStar_graphOrg1, matchPieces_pair, findPiece_isSome_iff]

/-- C10: a stored `null` is indistinguishable from a miss at the public
interface.  If the unexpired entry at `key` holds `null`, then `get` returns
`null`, and `getOrSet` invokes the factory (returning and storing its value)
on this call and again on an immediately following call when the factory
returned `null`. -/
theorem c10_null_cache_miss {V : Type} (c : CacheState V) (key : String)
    (nowMs : ℤ) (entry : CacheEntry V)
    (hfound : aget c.entries key = some entry)
    (hnull : entry.value = none)
    (hlive : nowMs ≤ entry.expiresAt) :
    (cacheGet c key nowMs).1 = none
    ∧ (∀ (factoryVal : Option V) (ttlMs : ℤ),
        (getOrSet c key factoryVal ttlMs nowMs).1 = factoryVal
        ∧ (getOrSet c key factoryVal ttlMs nowMs).2.2 = true)
    ∧ (∀ ttlMs : ℤ, 0 ≤ ttlMs → ∀ (fv2 : Option V) (ttl2 : ℤ),
        (getOrSet ((getOrSet c key none ttlMs nowMs).2.1) key fv2 ttl2 nowMs).2.2 = true) := by
  have hget : cacheGet c key nowMs = (none, ⟨c.entries, c.hits + 1, c.misses⟩) := by
    simp [cacheGet, hfound, not_lt.mpr hlive, hnull]
  refine ⟨by rw [hget], ?_, ?_⟩
  · intro factoryVal ttlMs
    simp [getOrSet, hget]
  · intro ttlMs httl fv2 ttl2
    have hstore : (getOrSet c key none ttlMs nowMs).2.1
        = cacheSet ⟨c.entries, c.hits + 1, c.misses⟩ key none ttlMs nowMs := by
      simp [getOrSet, hget]
    rw [hstore]
    have hget2 : aget (cacheSet ⟨c.entries, c.hits + 1, c.misses⟩ key none ttlMs nowMs).entries key
        = some ⟨none, nowMs + ttlMs, nowMs⟩ := by
      simp [cacheSet, aget_aset_self]
    simp [getOrSet, cacheGet, hget2, not_lt.mpr (by linarith : nowMs ≤ nowMs + ttlMs)]

/-- Witness for the stored-`null` claim: a concrete cache holding `null` at
`"k"`, still live at time 50, misses on `get` and re-invokes the factory. -/
theorem c10_null_cache_miss_witness :
    (cacheGet (⟨[("k", ⟨none, 100, 0⟩)], 0, 0⟩ : CacheState ℕ) "k" 50).1 = none
    ∧ (getOrSet (⟨[("k", ⟨none, 100, 0⟩)], 0, 0⟩ : CacheState ℕ) "k" (some 7) 10 50).2.2 = true :=
  ⟨(c10_null_cache_miss _ "k" 50 ⟨none, 100, 0⟩ (by decide) rfl (by decide)).1,
   ((c10_null_cache_miss _ "k" 50 ⟨none, 100, 0⟩ (by decide) rfl (by decide)).2.1 (some 7) 10).2⟩

/-- Inserting permutes: the result is the element consed on the list. -/
theorem insertDesc_perm {α : Type} (key : α → ℚ) (x : α) (l : List α) :
    (insertDesc key x l).Perm (x :: l) := by
  induction l with
  | nil => simp [insertDesc]
  | cons y ys ih =>
    by_cases h : key y ≤ key x
    · simp [insertDesc, h]
    · simp only [insertDesc, if_neg h]
      exact (ih.cons y).trans (List.Perm.swap x y ys)

/-- Sorting permutes. -/
theorem sortDesc_perm {α : Type} (key : α → ℚ) (l : List α) :
    (sortDesc key l).Perm l := by
  induction l with
  | nil => simp [sortDesc]
  | cons x xs ih => exact (insertDesc_perm key x (sortDesc key xs)).trans (ih.cons x)

/-- Inserting into a descending list keeps it descending. -/
theorem insertDesc_sorted {α : Type} (key : α → ℚ) (x : α) (l : List α)
    (hl : l.Pairwise (fun a b => key b ≤ key a)) :
    (insertDesc key x l).Pairwise (fun a b => key b ≤ key a) := by
  induction l with
  | nil => simp [insertDesc]
  | cons y ys ih =>
    by_cases h : key y ≤ key x
    · simp only [insertDesc, if_pos h]
      refine List.Pairwise.cons ?_ hl
      intro z hz
      rcases List.mem_cons.mp hz with rfl | hz'
      · exact h
      · exact le_trans (List.rel_of_pairwise_cons hl hz') h
    · simp only [insertDesc, if_neg h]
      refine List.Pairwise.cons ?_ (ih hl.of_cons)
      intro z hz
      rcases List.mem_cons.mp ((insertDesc_perm key x ys).mem_iff.mp hz) with rfl | hz'
      · exact le_of_lt (lt_of_not_le h)
      · exact List.rel_of_pairwise_cons hl hz'

/-- The sort is descending in the key. -/
theorem sortDesc_sorted {α : Type} (key : α → ℚ) (l : List α) :
    (sortDesc key l).Pairwise (fun a b => key b ≤ key a) := by
  induction l with
  | nil => simp [sortDesc]
  | cons x xs ih => exact insertDesc_sorted key x (sortDesc key xs) ih

/-- Stability, as a pairwise invariant over indexed elements: inserting an
element whose index is smaller than every index in the list preserves
"descending keys, equal keys in index order". -/
theorem insertDesc_pairwise_stable {α : Type} (key : α → ℚ) (idx : α → ℕ)
    (x : α) (l : List α)
    (hl : l.Pairwise (fun a b => key b < key a ∨ (key a = key b ∧ idx a < idx b)))
    (hx : ∀ y ∈ l, idx x < idx y) :
    (insertDesc key x l).Pairwise
      (fun a b => key b < key a ∨ (key a = key b ∧ idx a < idx b)) := by
  induction l with
  | nil => simp [insertDesc]
  | cons y ys ih =>
    by_cases h : key y ≤ key x
    · simp only [insertDesc, if_pos h]
      refine List.Pairwise.cons ?_ hl
      intro z hz
      rcases List.mem_cons.mp hz with rfl | hz'
      · rcases lt_or_eq_of_le h with hlt | heq
        · exact Or.inl hlt
        · exact Or.inr ⟨heq.symm, hx z (by simp)⟩
      · have hzy := List.rel_of_pairwise_cons hl hz'
        have hzley : key z ≤ key y := by
          rcases hzy with hlt | ⟨heq, _⟩
          · exact le_of_lt hlt
          · exact le_of_eq heq.symm
        rcases lt_or_eq_of_le (le_trans hzley h) with hlt | heq
        · exact Or.inl hlt
        · exact Or.inr ⟨heq.symm, hx z (by simp [hz'])⟩
    · simp only [insertDesc, if_neg h]
      refine List.Pairwise.cons ?_ (ih hl.of_cons (fun y' hy' => hx y' (by simp [hy'])))
      intro z hz
      rcases List.mem_cons.mp ((insertDesc_perm key x ys).mem_iff.mp hz) with rfl | hz'
      · exact Or.inl (lt_of_not_le h)
      · exact List.rel_of_pairwise_cons hl hz'

/-- Sorting a list whose indices strictly increase yields the stable order:
descending keys, and equal keys ordered by index. -/
theorem sortDesc_pairwise_stable {α : Type} (key : α → ℚ) (idx : α → ℕ) (l : List α)
    (hl : l.Pairwise (fun a b => idx a < idx b)) :
    (sortDesc key l).Pairwise
      (fun a b => key b < key a ∨ (key a = key b ∧ idx a < idx b)) := by
  induction l with
  | nil => simp [sortDesc]
  | cons x xs ih =>
    refine insertDesc_pairwise_stable key idx x (sortDesc key xs) (ih hl.of_cons) ?_
    intro y hy
    exact List.rel_of_pairwise_cons hl ((sortDesc_perm key xs).mem_iff.mp hy)

/-- Sorting indexed elements by a key on the payload and projecting equals
sorting the payloads: the comparator ignores the index. -/
theorem insertDesc_map_snd {α : Type} (key : α → ℚ) (x : ℕ × α) (l : List (ℕ × α)) :
    (insertDesc (fun p => key p.2) x l).map Prod.snd
      = insertDesc key x.2 (l.map Prod.snd) := by
  induction l with
  | nil => simp [insertDesc]
  | cons y ys ih =>
    by_cases h : key y.2 ≤ key x.2
    · simp [insertDesc, h]
    · simp [insertDesc, h, ih]

/-- Projection of the indexed sort is the plain sort. -/
theorem sortDesc_map_snd {α : Type} (key : α → ℚ) (l : List (ℕ × α)) :
    (sortDesc (fun p => key p.2) l).map Prod.snd = sortDesc key (l.map Prod.snd) := by
  induction l with
  | nil => simp [sortDesc]
  | cons x xs ih => simp [sortDesc, insertDesc_map_snd, ih]

/-- Indices in `enumFrom` are at least the start index. -/
theorem enumFrom_fst_ge {α : Type} (n : ℕ) (l : List α) :
    ∀ p ∈ l.enumFrom n, n ≤ p.1 := by
  induction l generalizing n with
  | nil => simp
  | cons x xs ih =>
    intro p hp
    rcases List.mem_cons.mp hp with rfl | hp'
    · exact le_refl n
    · exact le_trans (Nat.le_succ n) (ih (n + 1) p hp')

/-- Indices in `enumFrom` strictly increase. -/
theorem enumFrom_fst_lt {α : Type} (n : ℕ) (l : List α) :
    (l.enumFrom n).Pairwise (fun a b => a.1 < b.1) := by
  induction l generalizing n with
  | nil => simp
  | cons x xs ih =>
    refine List.Pairwise.cons ?_ (ih (n + 1))
    intro p hp
    exact lt_of_lt_of_le (Nat.lt_succ_self n) (enumFrom_fst_ge (n + 1) xs p hp)

/-- C7: `findTopInfluencers` returns `min limit (length nodes)` nodes, sorted
non-increasing by the chosen metric key (`total` ↦ `rawScore`, `direct` ↦
`score`, `propagated` ↦ `rawScore - score`, `volatility` ↦ `volatility`), and
the output is the truncation of a stable arrangement of the input: a
permutation of the indexed input that is descending in the key with ties kept
in original input order. -/
theorem c7_top_influencers (nodes : List InfluenceNode) (metric : Metric) (limit : ℕ) :
    (findTopInfluencers nodes metric limit).length = min limit nodes.length
    ∧ (findTopInfluencers nodes metric limit).Pairwise
        (fun a b => metricKey metric b ≤ metricKey metric a)
    ∧ ∃ idxSorted : List (ℕ × InfluenceNode),
        idxSorted.Perm nodes.enum
        ∧ idxSorted.Pairwise (fun a b =>
            metricKey metric b.2 < metricKey metric a.2
            ∨ (metricKey metric a.2 = metricKey metric b.2 ∧ a.1 < b.1))
        ∧ findTopInfluencers nodes metric limit = (idxSorted.map Prod.snd).take limit := by
  refine ⟨?_, ?_, ?_⟩
  · rw [findTopInfluencers, List.length_take, (sortDesc_perm _ nodes).length_eq]
  · exact (sortDesc_sorted (metricKey metric) nodes).sublist
      (List.take_sublist limit (sortDesc (metricKey metric) nodes))
  · refine ⟨sortDesc (fun p => metricKey metric p.2) nodes.enum,
      sortDesc_perm _ nodes.enum,
      sortDesc_pairwise_stable (fun p => metricKey metric p.2) Prod.fst nodes.enum
        (by rw [List.enum]; exact enumFrom_fst_lt 0 nodes), ?_⟩
    rw [sortDesc_map_snd, List.enum_map_snd, findTopInfluencers]

/-- Updating one key leaves the lookup of other keys unchanged. -/
theorem aget_aset_ne {α β : Type} [DecidableEq α] (m : List (α × β)) (k' k : α) (v : β)
    (h : k' ≠ k) : aget (aset m k' v) k = aget m k := by
  induction m with
  | nil => simp [aset, aget, h]
  | cons p rest ih =>
    obtain ⟨a, b⟩ := p
    by_cases ha : a = k'
    · simp [aset, aget, ha, h]
    · simp [aset, aget, ha, ih]

/-- A raised `changed` flag stays raised for the rest of an iteration. -/
theorem lpaNode_true (adj : List (String × List InfluenceEdge))
    (l : List (String × ℕ)) (n : String) : (lpaNode adj (l, true) n).2 = true := by
  simp only [lpaNode]
  split_ifs <;> rfl

/-- Folding an iteration from a raised flag ends with the flag raised. -/
theorem lpaFold_true (adj : List (String × List InfluenceEdge)) (ns : List String) :
    ∀ acc : List (String × ℕ) × Bool, acc.2 = true →
      (ns.foldl (lpaNode adj) acc).2 = true := by
  induction ns with
  | nil => intro acc h; exact h
  | cons n rest ih =>
    intro acc h
    rw [List.foldl_cons]
    apply ih
    obtain ⟨l, b⟩ := acc
    cases b with
    | false => exact absurd h (by simp)
    | true => exact lpaNode_true adj l n

/-- A node step that does not raise the flag leaves the state untouched. -/
theorem lpaNode_false (adj : List (String × List InfluenceEdge))
    (l : List (String × ℕ)) (n : String)
    (h : (lpaNode adj (l, false) n).2 = false) : lpaNode adj (l, false) n = (l, false) := by
  simp only [lpaNode] at h ⊢
  split_ifs at h ⊢
  all_goals rfl

/-- An iteration that reports no change did not change the labels. -/
theorem lpaFold_false (adj : List (String × List InfluenceEdge)) (ns : List String) :
    ∀ l : List (String × ℕ), (ns.foldl (lpaNode adj) (l, false)).2 = false →
      (ns.foldl (lpaNode adj) (l, false)).1 = l := by
  induction ns with
  | nil => intro l _; rfl
  | cons n rest ih =>
    intro l h
    rw [List.foldl_cons] at h ⊢
    by_cases hc : (lpaNode adj (l, false) n).2 = true
    · exfalso
      rw [lpaFold_true adj rest (lpaNode adj (l, false) n) hc] at h
      exact absurd h (by simp)
    · have hstep := lpaNode_false adj l n (by simpa using hc)
      rw [hstep] at h ⊢
      exact ih l h

/-- The loop with fuel `n` computes some `k ≤ n` synchronous-iteration steps of
the per-pass function, and when it stops early the result is a fixed point
whose next pass reports no change. -/
theorem lpaLoop_iterate (adj : List (String × List InfluenceEdge)) (ns : List String) :
    ∀ (n : ℕ) (l : List (String × ℕ)),
      ∃ k ≤ n, lpaLoop adj ns n l = (fun l' => (lpaPass adj ns l').1)^[k] l
        ∧ (k < n → (lpaPass adj ns (lpaLoop adj ns n l)).2 = false) := by
  intro n
  induction n with
  | zero =>
    intro l
    exact ⟨0, le_refl 0, rfl, fun h => absurd h (lt_irrefl 0)⟩
  | succ m ih =>
    intro l
    by_cases hc : (lpaPass adj ns l).2 = true
    · obtain ⟨k, hk, heq, hfix⟩ := ih (lpaPass adj ns l).1
      have hloop : lpaLoop adj ns (m + 1) l = lpaLoop adj ns m (lpaPass adj ns l).1 := by
        simp only [lpaLoop, hc, if_true]
      refine ⟨k + 1, Nat.succ_le_succ hk, ?_, ?_⟩
      · rw [hloop, heq, Function.iterate_succ_apply]
      · intro hlt
        rw [hloop]
        exact hfix (Nat.lt_of_succ_lt_succ hlt)
    · have hcf : (lpaPass adj ns l).2 = false := by simpa using hc
      have hl : (lpaPass adj ns l).1 = l := lpaFold_false adj ns l hcf
      have hloop : lpaLoop adj ns (m + 1) l = (lpaPass adj ns l).1 := by
        simp only [lpaLoop, hcf]
        simp
      refine ⟨0, Nat.zero_le _, ?_, ?_⟩
      · rw [hloop, hl, Function.iterate_zero_apply]
      · intro _
        rw [hloop, hl]
        exact hcf

/-- The starting maximum never exceeds the folded maximum. -/
theorem voteMaxFrom_ge (mx : ℚ) (counts : List (ℕ × ℚ)) : mx ≤ voteMaxFrom mx counts := by
  induction counts generalizing mx with
  | nil => exact le_refl mx
  | cons p rest ih =>
    calc mx ≤ max mx p.2 := le_max_left mx p.2
    _ ≤ voteMaxFrom (max mx p.2) rest := ih (max mx p.2)
    _ = voteMaxFrom mx (p :: rest) := rfl

/-- The running-maximum fold: its count is the table's maximum; when some
count beats the start, the result is the first table entry attaining the
maximum; when none does, the start pair survives. -/
theorem pickStep_fold_spec (counts : List (ℕ × ℚ)) :
    ∀ (best : ℕ) (mx : ℚ),
      (counts.foldl pickStep (best, mx)).2 = voteMaxFrom mx counts
      ∧ (mx < voteMaxFrom mx counts →
          counts.find? (fun p => p.2 == voteMaxFrom mx counts)
            = some (counts.foldl pickStep (best, mx)))
      ∧ (voteMaxFrom mx counts ≤ mx → counts.foldl pickStep (best, mx) = (best, mx)) := by
  induction counts with
  | nil =>
    intro best mx
    exact ⟨rfl, fun h => absurd h (lt_irrefl mx), fun _ => rfl⟩
  | cons p rest ih =>
    intro best mx
    obtain ⟨l, c⟩ := p
    by_cases h : mx < c
    · have hfold : List.foldl pickStep (best, mx) ((l, c) :: rest)
          = rest.foldl pickStep (l, c) := by
        simp [List.foldl_cons, pickStep, h]
      have hmax : voteMaxFrom mx ((l, c) :: rest) = voteMaxFrom c rest := by
        show voteMaxFrom (max mx c) rest = voteMaxFrom c rest
        rw [max_eq_right (le_of_lt h)]
      obtain ⟨ih1, ih2, ih3⟩ := ih l c
      rw [hfold, hmax]
      refine ⟨ih1, ?_, ?_⟩
      · intro _
        by_cases hc2 : c < voteMaxFrom c rest
        · have hside : ¬ ((fun p => p.2 == voteMaxFrom c rest) ((l, c) : ℕ × ℚ)) = true := by
            simp [beq_eq_false_iff_ne.mpr (ne_of_lt hc2)]
          rw [@List.find?_cons_of_neg _ (fun p => p.2 == voteMaxFrom c rest) (l, c) rest hside]
          exact ih2 hc2
        · have hMc : voteMaxFrom c rest = c :=
            le_antisymm (not_lt.mp hc2) (voteMaxFrom_ge c rest)
          have hside : ((fun p => p.2 == voteMaxFrom c rest) ((l, c) : ℕ × ℚ)) = true := by
            simp [hMc]
          rw [@List.find?_cons_of_pos _ (fun p => p.2 == voteMaxFrom c rest) (l, c) rest hside,
            ih3 (le_of_eq hMc)]
      · intro hle
        exact absurd (lt_of_lt_of_le h (voteMaxFrom_ge c rest)) (not_lt.mpr hle)
    · have hfold : List.foldl pickStep (best, mx) ((l, c) :: rest)
          = rest.foldl pickStep (best, mx) := by
        simp [List.foldl_cons, pickStep, h]
      have hmax : voteMaxFrom mx ((l, c) :: rest) = voteMaxFrom mx rest := by
        show voteMaxFrom (max mx c) rest = voteMaxFrom mx rest
        rw [max_eq_left (not_lt.mp h)]
      obtain ⟨ih1, ih2, ih3⟩ := ih best mx
      rw [hfold, hmax]
      refine ⟨ih1, ?_, ih3⟩
      · intro hlt
        have hcM : c < voteMaxFrom mx rest := lt_of_le_of_lt (not_lt.mp h) hlt
        have hside : ¬ ((fun p => p.2 == voteMaxFrom mx rest) ((l, c) : ℕ × ℚ)) = true := by
          simp [beq_eq_false_iff_ne.mpr (ne_of_lt hcM)]
        rw [@List.find?_cons_of_neg _ (fun p => p.2 == voteMaxFrom mx rest) (l, c) rest hside]
        exact ih2 hlt

/-- Keys not in the remaining node list keep their binding through
initialisation. -/
theorem initFold_aget_notmem (l : List String) :
    ∀ (m : List (String × ℕ)) (c : ℕ) (k : String), k ∉ l →
      aget ((l.foldl (fun acc nid => (aset acc.1 nid acc.2, acc.2 + 1)) (m, c)).1) k
        = aget m k := by
  induction l with
  | nil => intro m c k _; rfl
  | cons x rest ih =>
    intro m c k hk
    simp only [List.foldl_cons]
    have hne : x ≠ k := fun he => hk (he ▸ List.mem_cons_self x rest)
    rw [ih (aset m x c) (c + 1) k (fun hm => hk (List.mem_cons_of_mem x hm))]
    exact aget_aset_ne m x k c hne

/-- Initialisation gives the node at position `i` the label `c + i`. -/
theorem initFold_aget (l : List String) :
    ∀ (m : List (String × ℕ)) (c i : ℕ) (h : i < l.length), l.Nodup →
      aget ((l.foldl (fun acc nid => (aset acc.1 nid acc.2, acc.2 + 1)) (m, c)).1)
          (l.get ⟨i, h⟩)
        = some (c + i) := by
  induction l with
  | nil => intro m c i h; exact absurd h (by simp)
  | cons x rest ih =>
    intro m c i h hnd
    have hx : x ∉ rest := (List.nodup_cons.mp hnd).1
    have hr : rest.Nodup := (List.nodup_cons.mp hnd).2
    simp only [List.foldl_cons]
    cases i with
    | zero =>
      rw [show (x :: rest).get ⟨0, h⟩ = x from rfl]
      rw [initFold_aget_notmem rest (aset m x c) (c + 1) x hx, aget_aset_self]
      rfl
    | succ j =>
      have hj : j < rest.length := Nat.lt_of_succ_lt_succ h
      rw [show (x :: rest).get ⟨j + 1, h⟩ = rest.get ⟨j, hj⟩ from rfl]
      rw [ih (aset m x c) (c + 1) j hj hr]
      congr 1
      omega

/-- C5 counterexample: with edges A→B (weight 5) and A→C (weight 5), node A's
two neighbour labels tie at vote 5.  The code relabels A to 1 — the label
encountered first (strict `count > maxCount` never replaces on a tie) — while
the claim's rule "a tie in the maximal vote keeps the node's current label"
leaves A at its own label 0.  The code does not keep the current label. -/
theorem c5_tie_counterexample :
    aget (detectCommunities
        [⟨"e1", "A", "B", 5, none, 0⟩, ⟨"e2", "A", "C", 5, none, 0⟩]
        ["A", "B", "C"]) "A" = some 1
    ∧ aget (detectCommunitiesSpecTie
        [⟨"e1", "A", "B", 5, none, 0⟩, ⟨"e2", "A", "C", 5, none, 0⟩]
        ["A", "B", "C"]) "A" = some 0 := by
  constructor <;>
    norm_num +decide [detectCommunities, detectCommunitiesSpecTie, buildAdjacencyList,
      adjPush, aget, aset, initLabels, lpaLoop, lpaLoopSpecTie, lpaPass, lpaPassSpecTie,
      lpaNode, lpaNodeSpecTie, pickBest, pickBestSpecTie, pickStep, maxVote, voteMaxFrom,
      voteCounts, List.foldl_cons, List.foldl_nil, List.filter_cons]

/-- C5 as amended: `detectCommunities` initialises each node of a duplicate-free
`nodeIds` with its unique index as label, runs at most 10 iterations of the
in-place pass (stopping early exactly when a pass changes no label, which makes
the result a fixed point), and each node's new label is chosen by a running
maximum that starts at the current label with count 0 and replaces only on a
strictly greater vote: when no vote is positive the current label is kept, and
otherwise the winner is the first label in encounter order attaining the
maximal vote — so a tie in the maximal vote goes to the first-encountered
label, not to the node's current label. -/
theorem c5_label_propagation :
    (∀ (edges : List InfluenceEdge) (nodeIds : List String),
      ∃ k ≤ 10,
        detectCommunities edges nodeIds
          = (fun l => (lpaPass (buildAdjacencyList edges) nodeIds l).1)^[k]
              (initLabels nodeIds)
        ∧ (k < 10 →
            (lpaPass (buildAdjacencyList edges) nodeIds
              (detectCommunities edges nodeIds)).2 = false))
    ∧ (∀ (adj : List (String × List InfluenceEdge)) (nodeIds : List String)
        (labels : List (String × ℕ)),
        (lpaPass adj nodeIds labels).2 = false → (lpaPass adj nodeIds labels).1 = labels)
    ∧ (∀ (counts : List (ℕ × ℚ)) (current : ℕ),
        maxVote counts ≤ 0 → pickBest counts current = current)
    ∧ (∀ (counts : List (ℕ × ℚ)) (current : ℕ),
        0 < maxVote counts →
          counts.find? (fun p => p.2 == maxVote counts)
            = some (pickBest counts current, maxVote counts))
    ∧ (∀ (nodeIds : List String) (i : ℕ) (h : i < nodeIds.length),
        nodeIds.Nodup → aget (initLabels nodeIds) (nodeIds.get ⟨i, h⟩) = some i) := by
  refine ⟨?_, ?_, ?_, ?_, ?_⟩
  · intro edges nodeIds
    obtain ⟨k, hk, heq, hfix⟩ :=
      lpaLoop_iterate (buildAdjacencyList edges) nodeIds 10 (initLabels nodeIds)
    refine ⟨k, hk, ?_, ?_⟩
    · rw [detectCommunities, heq]
    · intro hlt
      rw [detectCommunities]
      exact hfix hlt
  · exact fun adj ns l h => lpaFold_false adj ns l h
  · intro counts current h0
    have h3 := (pickStep_fold_spec counts current 0).2.2 (by rwa [maxVote] at h0)
    rw [pickBest, h3]
  · intro counts current hpos
    have h1 := (pickStep_fold_spec counts current 0).1
    have h2 := (pickStep_fold_spec counts current 0).2.1 (by rwa [maxVote] at hpos)
    have h3 : counts.foldl pickStep (current, 0)
        = (pickBest counts current, voteMaxFrom 0 counts) := by
      rw [pickBest, ← h1]
    rw [maxVote, h2]
    exact congrArg some h3
  · intro nodeIds i h hnd
    have := initFold_aget nodeIds [] 0 i h hnd
    simpa [initLabels] using this

/-- Witness for the amended label-propagation claim at the tied vote table
`[(1, 5), (2, 5)]`: the maximal vote is positive and the winner reported by
the characterisation is the first-encountered label 1, not the current
label 0. -/
theorem c5_label_propagation_witness :
    (0 : ℚ) < maxVote [(1, 5), (2, 5)]
    ∧ List.find? (fun p => p.2 == maxVote [(1, (5 : ℚ)), (2, 5)]) [(1, (5 : ℚ)), (2, 5)]
        = some (pickBest [(1, (5 : ℚ)), (2, 5)] 0, maxVote [(1, (5 : ℚ)), (2, 5)]) :=
  ⟨by norm_num [maxVote, voteMaxFrom, List.foldl_cons, List.foldl_nil, lt_max_iff],
   c5_label_propagation.2.2.2.1 [(1, 5), (2, 5)] 0
     (by norm_num [maxVote, voteMaxFrom, List.foldl_cons, List.foldl_nil, lt_max_iff])⟩

/-- The loop on an empty queue returns its accumulators, with any fuel. -/
theorem bfsLoop_nil (adj : List (String × List InfluenceEdge)) (m : ℕ) (d : ℚ) :
    ∀ (fuel : ℕ) (paths : List InfluencePath) (prop : ℚ),
      bfsLoop adj m d fuel [] paths prop = (paths, prop) := by
  intro fuel paths prop
  cases fuel <;> rfl

/-- Lookup distributes over appended association lists. -/
theorem aget_append {α β : Type} [DecidableEq α] (m1 m2 : List (α × β)) (k : α) :
    aget (m1 ++ m2) k = match aget m1 k with
      | some v => some v
      | none => aget m2 k := by
  induction m1 with
  | nil => rfl
  | cons p rest ih =>
    obtain ⟨a, b⟩ := p
    by_cases ha : a = k
    · simp [aget, ha]
    · simp [aget, ha, ih]

/-- Pushing an edge of a different source does not create that key. -/
theorem aget_adjPush_ne (m : List (String × List InfluenceEdge)) (e : InfluenceEdge)
    (k : String) (h : e.sourceUserId ≠ k) : aget (adjPush m e) k = aget m k := by
  rw [adjPush]
  cases hm : aget m e.sourceUserId with
  | none =>
    rw [aget_append]
    cases hk : aget m k with
    | none => simp [aget, h]
    | some v => rfl
  | some l => exact aget_aset_ne m e.sourceUserId k (l ++ [e]) h

/-- A node that is source of no edge has no adjacency entry. -/
theorem buildAdjacencyList_aget_none (edges : List InfluenceEdge) (k : String)
    (h : ∀ e ∈ edges, e.sourceUserId ≠ k) :
    aget (buildAdjacencyList edges) k = none := by
  rw [buildAdjacencyList]
  have hgen : ∀ m : List (String × List InfluenceEdge), aget m k = none →
      aget (edges.foldl adjPush m) k = none := by
    induction edges with
    | nil => intro m hm; exact hm
    | cons e rest ih =>
      intro m hm
      rw [List.foldl_cons]
      refine ih (fun e' he' => h e' (List.mem_cons_of_mem e he')) (adjPush m e) ?_
      rw [aget_adjPush_ne m e k (h e (List.mem_cons_self e rest))]
      exact hm
  exact hgen [] rfl

/-- A source with no adjacency entry: the BFS dequeues only the start entry,
records nothing (depth 0), pushes nothing, and the direct influence is 0. -/
theorem propagateFromNode_no_out (nodeId : String)
    (adj : List (String × List InfluenceEdge)) (maxDepth : ℕ) (decay : ℚ)
    (h : aget adj nodeId = none) :
    propagateFromNode nodeId adj maxDepth decay = ⟨nodeId, 0, 0, 0, []⟩ := by
  have hstep : ∀ f : ℕ,
      bfsLoop adj maxDepth decay (f + 1) [initEntry nodeId] [] 0 = ([], 0) := by
    intro f
    by_cases hm : maxDepth ≤ 0
    · simp [bfsLoop, initEntry, hm, bfsLoop_nil]
    · simp [bfsLoop, initEntry, hm, h, pushCandidates, bfsLoop_nil]
  have hpos : 0 < propagationFuel adj maxDepth nodeId := by
    have : 0 < entryFuel (outDegBound adj) maxDepth (initEntry nodeId) :=
      pow_pos (Nat.succ_pos (outDegBound adj)) _
    simpa [propagationFuel, queueFuel] using this
  have hfuel : propagationFuel adj maxDepth nodeId
      = (propagationFuel adj maxDepth nodeId - 1) + 1 := by omega
  rw [propagateFromNode, bfsRun, hfuel, hstep]
  simp [h]

/-- Lookup in the per-node result map built by `calculatePropagatedInfluence`. -/
theorem aget_foldl_aset {β : Type} (f : String → β) (nodeIds : List String) :
    ∀ (init : List (String × β)) (k : String),
      aget (nodeIds.foldl (fun r n => aset r n (f n)) init) k
        = if k ∈ nodeIds then some (f k) else aget init k := by
  induction nodeIds with
  | nil => intro init k; simp
  | cons x rest ih =>
    intro init k
    rw [List.foldl_cons, ih (aset init x (f x)) k]
    by_cases hr : k ∈ rest
    · simp [hr, List.mem_cons]
    · by_cases hx : k = x
      · subst hx
        simp [hr, aget_aset_self]
      · have : k ∉ x :: rest := by
          simp [List.mem_cons, hx, hr]
        simp [hr, hx, this, aget_aset_ne init x k (f x) (fun he => hx he.symm)]

/-- The result map holds `propagateFromNode` for every requested node. -/
theorem calcProp_aget (edges : List InfluenceEdge) (nodeIds : List String)
    (maxDepth : ℕ) (decay : ℚ) (nodeId : String) (hmem : nodeId ∈ nodeIds) :
    aget (calculatePropagatedInfluence edges nodeIds maxDepth decay) nodeId
      = some (propagateFromNode nodeId (buildAdjacencyList edges) maxDepth decay) := by
  rw [calculatePropagatedInfluence]
  rw [aget_foldl_aset (fun n => propagateFromNode n (buildAdjacencyList edges) maxDepth decay)
    nodeIds [] nodeId]
  rw [if_pos hmem]

/-- C6 counterexample: a node with no outgoing edges gets an empty `paths`
list — not the claimed one-element list holding the node itself at depth 0.
The source records a dequeued entry only when `depth > 0`, so the start entry
is never recorded. -/
theorem c6_paths_counterexample :
    aget (calculatePropagatedInfluence [] ["A"] 3 (3/5)) "A"
      = some ⟨"A", 0, 0, 0, ([] : List InfluencePath)⟩ := by
  norm_num +decide [calculatePropagatedInfluence, buildAdjacencyList, adjPush, aget, aset,
    propagateFromNode, bfsRun, bfsLoop, propagationFuel, queueFuel, entryFuel,
    outDegBound, initEntry, pushCandidates, MIN_WEIGHT_THRESHOLD, List.filterMap_cons]

/-- C6 as amended: every node id with no outgoing edges in the input
(including ids absent from the adjacency structure) is processed without
error and yields `directInfluence = 0`, `propagatedInfluence = 0`,
`totalInfluence = 0` and an EMPTY path list — the node itself at depth 0 is
dequeued but never recorded, so no one-element path list is produced. -/
theorem c6_isolated_node (edges : List InfluenceEdge) (nodeIds : List String)
    (maxDepth : ℕ) (decay : ℚ) (nodeId : String)
    (hmem : nodeId ∈ nodeIds)
    (hno : ∀ e ∈ edges, e.sourceUserId ≠ nodeId) :
    aget (calculatePropagatedInfluence edges nodeIds maxDepth decay) nodeId
      = some ⟨nodeId, 0, 0, 0, []⟩ := by
  rw [calcProp_aget edges nodeIds maxDepth decay nodeId hmem,
    propagateFromNode_no_out nodeId (buildAdjacencyList edges) maxDepth decay
      (buildAdjacencyList_aget_none edges nodeId hno)]

/-- Witness for the isolated-node claim: node A, present in `nodeIds` but the
source of no edge, yields zeroes and an empty path list. -/
theorem c6_isolated_node_witness :
    aget (calculatePropagatedInfluence
        [⟨"eBC", "B", "C", 50, none, 0⟩] ["A", "B", "C"] 3 (3/5)) "A"
      = some ⟨"A", 0, 0, 0, []⟩ :=
  c6_isolated_node [⟨"eBC", "B", "C", 50, none, 0⟩] ["A", "B", "C"] 3 (3/5) "A"
    (by decide) (by decide)

/-- One unfolding of the BFS loop on a non-empty queue. -/
theorem bfsLoop_cons (adj : List (String × List InfluenceEdge)) (m : ℕ) (d : ℚ)
    (f : ℕ) (cur : QueueEntry) (rest : List QueueEntry)
    (paths : List InfluencePath) (prop : ℚ) :
    bfsLoop adj m d (f + 1) (cur :: rest) paths prop
      = if m ≤ cur.depth then
          bfsLoop adj m d f rest
            (if 0 < cur.depth then paths ++ [⟨cur.path, cur.weight, cur.depth⟩] else paths)
            (if 0 < cur.depth then prop + cur.weight else prop)
        else
          bfsLoop adj m d f (rest ++ pushCandidates ((aget adj cur.nodeId).getD []) cur d)
            (if 0 < cur.depth then paths ++ [⟨cur.path, cur.weight, cur.depth⟩] else paths)
            (if 0 < cur.depth then prop + cur.weight else prop) := by
  rfl

/-- Every pushed queue entry is one level deeper than the entry it came from. -/
theorem pushCandidates_depth (nb : List InfluenceEdge) (cur : QueueEntry) (d : ℚ) :
    ∀ e ∈ pushCandidates nb cur d, e.depth = cur.depth + 1 := by
  intro e he
  rw [pushCandidates] at he
  obtain ⟨edge, _, hsome⟩ := List.mem_filterMap.mp he
  by_cases hw : cur.weight * (edge.weight / 100) * d < MIN_WEIGHT_THRESHOLD
  · simp [hw] at hsome
  · simp only [hw, if_false] at hsome
    rw [← Option.some.inj hsome]

/-- At most one entry is pushed per neighbouring edge. -/
theorem pushCandidates_length (nb : List InfluenceEdge) (cur : QueueEntry) (d : ℚ) :
    (pushCandidates nb cur d).length ≤ nb.length := by
  rw [pushCandidates]
  exact List.length_filterMap_le _ _

/-- A successful lookup is a member. -/
theorem aget_some_mem {α β : Type} [DecidableEq α] (m : List (α × β)) (k : α) (v : β)
    (h : aget m k = some v) : (k, v) ∈ m := by
  induction m with
  | nil => simp [aget] at h
  | cons p rest ih =>
    obtain ⟨a, b⟩ := p
    simp only [aget] at h
    by_cases ha : a = k
    · rw [if_pos ha] at h
      rw [← ha, Option.some.inj h]
      exact List.mem_cons_self _ _
    · rw [if_neg ha] at h
      exact List.mem_cons_of_mem _ (ih h)

/-- The out-degree fold dominates its start. -/
theorem le_outDeg_foldl (adj : List (String × List InfluenceEdge)) :
    ∀ init : ℕ, init ≤ adj.foldl (fun m p => max m p.2.length) init := by
  induction adj with
  | nil => intro init; exact le_refl _
  | cons p rest ih =>
    intro init
    calc init ≤ max init p.2.length := le_max_left _ _
    _ ≤ _ := ih _

/-- The out-degree fold dominates every member's list length. -/
theorem mem_outDeg_foldl (adj : List (String × List InfluenceEdge)) (k : String)
    (l : List InfluenceEdge) (hm : (k, l) ∈ adj) :
    ∀ init : ℕ, l.length ≤ adj.foldl (fun m p => max m p.2.length) init := by
  induction adj with
  | nil => simp at hm
  | cons p rest ih =>
    intro init
    rcases List.mem_cons.mp hm with heq | hm'
    · rw [List.foldl_cons, ← heq]
      exact le_trans (le_max_right init l.length) (le_outDeg_foldl rest _)
    · exact ih hm' _

/-- The adjacency entry of any node has at most `outDegBound` edges. -/
theorem outDeg_le (adj : List (String × List InfluenceEdge)) (k : String)
    (l : List InfluenceEdge) (h : aget adj k = some l) : l.length ≤ outDegBound adj :=
  mem_outDeg_foldl adj k l (aget_some_mem adj k l h) 0

/-- Entry fuel is positive. -/
theorem entryFuel_pos (B m : ℕ) (e : QueueEntry) : 0 < entryFuel B m e :=
  pow_pos (Nat.succ_pos B) _

/-- Queue fuel of a cons. -/
theorem queueFuel_cons (B m : ℕ) (e : QueueEntry) (q : List QueueEntry) :
    queueFuel B m (e :: q) = entryFuel B m e + queueFuel B m q := by
  simp [queueFuel]

/-- Queue fuel of an append. -/
theorem queueFuel_append (B m : ℕ) (q1 q2 : List QueueEntry) :
    queueFuel B m (q1 ++ q2) = queueFuel B m q1 + queueFuel B m q2 := by
  simp [queueFuel]

/-- Queue fuel of a queue whose entries all share one entry fuel. -/
theorem queueFuel_const (B m : ℕ) (q : List QueueEntry) (v : ℕ)
    (h : ∀ e ∈ q, entryFuel B m e = v) : queueFuel B m q = q.length * v := by
  induction q with
  | nil => simp [queueFuel]
  | cons e rest ih =>
    rw [queueFuel_cons, h e (List.mem_cons_self e rest),
      ih (fun e' he' => h e' (List.mem_cons_of_mem e he')), List.length_cons,
      Nat.succ_mul, Nat.add_comm]

/-- The expansion step strictly shrinks the queue fuel: the dequeued entry's
fuel strictly exceeds the total fuel of everything it pushes. -/
theorem queueFuel_new_lt (adj : List (String × List InfluenceEdge)) (m : ℕ) (d : ℚ)
    (cur : QueueEntry) (rest : List QueueEntry) (hd : cur.depth < m) :
    queueFuel (outDegBound adj) m
        (rest ++ pushCandidates ((aget adj cur.nodeId).getD []) cur d)
      < queueFuel (outDegBound adj) m (cur :: rest) := by
  rw [queueFuel_append, queueFuel_cons]
  have hlen : (pushCandidates ((aget adj cur.nodeId).getD []) cur d).length
      ≤ outDegBound adj := by
    cases hne : aget adj cur.nodeId with
    | none => simp [pushCandidates]
    | some l =>
      calc (pushCandidates ((some l).getD []) cur d).length
          ≤ l.length := pushCandidates_length l cur d
      _ ≤ outDegBound adj := outDeg_le adj cur.nodeId l hne
  have hval : ∀ e ∈ pushCandidates ((aget adj cur.nodeId).getD []) cur d,
      entryFuel (outDegBound adj) m e = (outDegBound adj + 1) ^ (m - cur.depth) := by
    intro e he
    rw [entryFuel, pushCandidates_depth _ cur d e he]
    congr 1
    omega
  rw [queueFuel_const _ _ _ _ hval]
  have h1 : (pushCandidates ((aget adj cur.nodeId).getD []) cur d).length
        * (outDegBound adj + 1) ^ (m - cur.depth)
      ≤ outDegBound adj * (outDegBound adj + 1) ^ (m - cur.depth) :=
    Nat.mul_le_mul_right _ hlen
  have h2 : outDegBound adj * (outDegBound adj + 1) ^ (m - cur.depth)
      < entryFuel (outDegBound adj) m cur := by
    rw [entryFuel, show m + 1 - cur.depth = (m - cur.depth) + 1 by omega, pow_succ,
      Nat.mul_comm]
    exact mul_lt_mul_of_pos_left (Nat.lt_succ_self _) (pow_pos (Nat.succ_pos _) _)
  rw [Nat.add_comm (entryFuel (outDegBound adj) m cur) (queueFuel (outDegBound adj) m rest)]
  exact Nat.add_lt_add_left (lt_of_le_of_lt h1 h2) _

/-- Depth invariant: if every queued entry and every recorded path is within
`m`, every path the loop ever records is within `m`. -/
theorem bfsLoop_depth_le (adj : List (String × List InfluenceEdge)) (m : ℕ) (d : ℚ) :
    ∀ (fuel : ℕ) (q : List QueueEntry) (paths : List InfluencePath) (prop : ℚ),
      (∀ e ∈ q, e.depth ≤ m) → (∀ p ∈ paths, p.depth ≤ m) →
      ∀ p ∈ (bfsLoop adj m d fuel q paths prop).1, p.depth ≤ m := by
  intro fuel
  induction fuel with
  | zero => intro q paths prop _ hp p hmem; exact hp p hmem
  | succ f ih =>
    intro q paths prop hq hp
    cases q with
    | nil => rw [bfsLoop_nil]; exact hp
    | cons cur rest =>
      rw [bfsLoop_cons]
      have hcur : cur.depth ≤ m := hq cur (List.mem_cons_self cur rest)
      have hrest : ∀ e ∈ rest, e.depth ≤ m := fun e he => hq e (List.mem_cons_of_mem cur he)
      have hp' : ∀ p ∈ (if 0 < cur.depth then
          paths ++ [⟨cur.path, cur.weight, cur.depth⟩] else paths), p.depth ≤ m := by
        intro p hpp
        by_cases h0 : 0 < cur.depth
        · rw [if_pos h0] at hpp
          rcases List.mem_append.mp hpp with hin | hin
          · exact hp p hin
          · rw [List.mem_singleton] at hin
            rw [hin]
            exact hcur
        · rw [if_neg h0] at hpp
          exact hp p hpp
      by_cases hm : m ≤ cur.depth
      · rw [if_pos hm]
        exact ih rest _ _ hrest hp'
      · rw [if_neg hm]
        refine ih _ _ _ ?_ hp'
        intro e he
        rcases List.mem_append.mp he with hin | hin
        · exact hrest e hin
        · rw [pushCandidates_depth _ cur d e hin]
          omega

/-- Fuel sufficiency: with at least `queueFuel` much fuel the loop's result no
longer depends on the fuel — the queue empties before the fuel does, which is
the termination of the source's `while` loop. -/
theorem bfsLoop_fuel_eq (adj : List (String × List InfluenceEdge)) (m : ℕ) (d : ℚ) :
    ∀ (fuel : ℕ) (q : List QueueEntry) (paths : List InfluencePath) (prop : ℚ),
      queueFuel (outDegBound adj) m q ≤ fuel →
      bfsLoop adj m d fuel q paths prop
        = bfsLoop adj m d (queueFuel (outDegBound adj) m q) q paths prop := by
  intro fuel
  induction fuel using Nat.strong_induction_on with
  | _ fuel ih =>
    intro q paths prop hle
    cases q with
    | nil => rw [bfsLoop_nil, bfsLoop_nil]
    | cons cur rest =>
      have hqpos : 0 < queueFuel (outDegBound adj) m (cur :: rest) := by
        rw [queueFuel_cons]
        exact lt_of_lt_of_le (entryFuel_pos _ _ _) (Nat.le_add_right _ _)
      obtain ⟨f, rfl⟩ : ∃ f, fuel = f + 1 := ⟨fuel - 1, by omega⟩
      obtain ⟨g, hg⟩ : ∃ g, queueFuel (outDegBound adj) m (cur :: rest) = g + 1 :=
        ⟨queueFuel (outDegBound adj) m (cur :: rest) - 1, by omega⟩
      rw [hg, bfsLoop_cons, bfsLoop_cons]
      by_cases hm : m ≤ cur.depth
      · rw [if_pos hm, if_pos hm]
        have hlt : queueFuel (outDegBound adj) m rest
            < queueFuel (outDegBound adj) m (cur :: rest) := by
          rw [queueFuel_cons]
          exact lt_of_lt_of_le (Nat.lt_add_of_pos_left (entryFuel_pos _ _ _)) (le_refl _)
        rw [ih f (by omega) rest _ _ (by omega), ih g (by omega) rest _ _ (by omega)]
      · rw [if_neg hm, if_neg hm]
        have hlt := queueFuel_new_lt adj m d cur rest (not_le.mp hm)
        rw [ih f (by omega) _ _ _ (by omega), ih g (by omega) _ _ _ (by omega)]

/-- Members of an updated map are old members or the new binding. -/
theorem mem_aset {α β : Type} [DecidableEq α] (m : List (α × β)) (k : α) (v : β) :
    ∀ kv ∈ aset m k v, kv ∈ m ∨ kv = (k, v) := by
  induction m with
  | nil =>
    intro kv h
    simp only [aset, List.mem_singleton] at h
    exact Or.inr h
  | cons p rest ih =>
    intro kv h
    obtain ⟨a, b⟩ := p
    simp only [aset] at h
    by_cases ha : a = k
    · rw [if_pos ha] at h
      rcases List.mem_cons.mp h with heq | hin
      · exact Or.inr heq
      · exact Or.inl (List.mem_cons_of_mem _ hin)
    · rw [if_neg ha] at h
      rcases List.mem_cons.mp h with heq | hin
      · rw [heq]
        exact Or.inl (List.mem_cons_self _ _)
      · rcases ih kv hin with h1 | h2
        · exact Or.inl (List.mem_cons_of_mem _ h1)
        · exact Or.inr h2

/-- Members of the fold of updates come from the start or are some update. -/
theorem mem_foldl_aset {β : Type} (f : String → β) (nodeIds : List String) :
    ∀ (init : List (String × β)) (kv : String × β),
      kv ∈ nodeIds.foldl (fun r n => aset r n (f n)) init →
      kv ∈ init ∨ ∃ n, kv = (n, f n) := by
  induction nodeIds with
  | nil => intro init kv h; exact Or.inl h
  | cons x rest ih =>
    intro init kv h
    rw [List.foldl_cons] at h
    rcases ih (aset init x (f x)) kv h with h1 | h2
    · rcases mem_aset init x (f x) kv h1 with h3 | h4
      · exact Or.inl h3
      · exact Or.inr ⟨x, h4⟩
    · exact Or.inr h2

/-- Every recorded path of a propagation result respects the depth cap. -/
theorem propagateFromNode_paths_depth (sourceId : String)
    (adj : List (String × List InfluenceEdge)) (m : ℕ) (d : ℚ) :
    ∀ p ∈ (propagateFromNode sourceId adj m d).paths, p.depth ≤ m := by
  have hq : ∀ e ∈ [initEntry sourceId], e.depth ≤ m := by
    intro e he
    rw [List.mem_singleton] at he
    rw [he]
    exact Nat.zero_le m
  have hp : ∀ p ∈ ([] : List InfluencePath), p.depth ≤ m := by
    intro p hp
    simp at hp
  exact bfsLoop_depth_le adj m d (propagationFuel adj m sourceId)
    [initEntry sourceId] [] 0 hq hp

/-- C8: the propagation traversal terminates — beyond the computed fuel bound
(`propagationFuel`, derived from `maxDepth` and the maximal out-degree, with
the sub-threshold pruning only shrinking the queue further) additional fuel
never changes the result, because the queue empties first — and no recorded
path contribution has depth greater than `maxDepth`. -/
theorem c8_termination_depth_bound (edges : List InfluenceEdge) (nodeIds : List String)
    (maxDepth : ℕ) (decay : ℚ) :
    (∀ kv ∈ calculatePropagatedInfluence edges nodeIds maxDepth decay,
      ∀ p ∈ kv.2.paths, p.depth ≤ maxDepth)
    ∧ (∀ (sourceId : String) (extra : ℕ),
        bfsRun (buildAdjacencyList edges) maxDepth decay
            (propagationFuel (buildAdjacencyList edges) maxDepth sourceId + extra) sourceId
          = bfsRun (buildAdjacencyList edges) maxDepth decay
              (propagationFuel (buildAdjacencyList edges) maxDepth sourceId) sourceId) := by
  constructor
  · intro kv hkv
    rcases mem_foldl_aset
        (fun n => propagateFromNode n (buildAdjacencyList edges) maxDepth decay)
        nodeIds [] kv hkv with h | ⟨n, heq⟩
    · simp at h
    · rw [heq]
      exact propagateFromNode_paths_depth n (buildAdjacencyList edges) maxDepth decay
  · intro sourceId extra
    rw [bfsRun, bfsRun, propagationFuel,
      bfsLoop_fuel_eq (buildAdjacencyList edges) maxDepth decay
        (queueFuel (outDegBound (buildAdjacencyList edges)) maxDepth [initEntry sourceId]
          + extra)
        [initEntry sourceId] [] 0 (Nat.le_add_right _ _),
      bfsLoop_fuel_eq (buildAdjacencyList edges) maxDepth decay
        (queueFuel (outDegBound (buildAdjacencyList edges)) maxDepth [initEntry sourceId])
        [initEntry sourceId] [] 0 (le_refl _)]

/-- Witness for the termination claim: on the empty graph, five units of extra
fuel leave the traversal from A unchanged. -/
theorem c8_termination_depth_bound_witness :
    bfsRun (buildAdjacencyList []) 3 (3/5)
        (propagationFuel (buildAdjacencyList []) 3 "A" + 5) "A"
      = bfsRun (buildAdjacencyList []) 3 (3/5)
          (propagationFuel (buildAdjacencyList []) 3 "A") "A" :=
  (c8_termination_depth_bound [] ["A"] 3 (3/5)).2 "A" 5

/-- C2 counterexample: one unprocessed event `+15` for X, zero edges.  The
first recompute sets `newScore(X) = 15` and marks the event processed — but
immediately re-running recompute sets `newScore(X) = 0`, not 15: a cycle
recomputes every score from direct + propagated + eventBonus alone, so the
claim that the score stays at 15 is false on the code (the event is indeed
not re-applied, but its bonus is not retained either). -/
theorem c2_rerun_counterexample :
    (recalculate [] ["X"] ⟨[⟨"e1", "X", 15, 0, none⟩], [("X", 0)]⟩ 1000).scores
      = [("X", 15)]
    ∧ (recalculate [] ["X"] ⟨[⟨"e1", "X", 15, 0, none⟩], [("X", 0)]⟩ 1000).events
      = [⟨"e1", "X", 15, 0, some 1000⟩]
    ∧ (recalculate [] ["X"]
        (recalculate [] ["X"] ⟨[⟨"e1", "X", 15, 0, none⟩], [("X", 0)]⟩ 1000) 2000).scores
      = [("X", 0)] := by
  refine ⟨?_, ?_, ?_⟩ <;>
    norm_num +decide [recalculate, pendingEvents, eventImpact, newScoreFor,
      calculatePropagatedInfluence, buildAdjacencyList, adjPush, aget, aset,
      propagateFromNode, bfsRun, bfsLoop, propagationFuel, queueFuel, entryFuel,
      outDegBound, initEntry, pushCandidates, MIN_WEIGHT_THRESHOLD,
      List.filterMap_cons, List.filter_cons, List.foldl_cons, List.foldl_nil]

/-- C2 as amended: an influence event is consumed exactly once — a recompute
cycle folds only events with `processedAt` unset into scores and then stamps
exactly those events — but a score does not retain past bonuses: each cycle
recomputes every score from direct + propagated + eventBonus alone.  In the
scenario (one unprocessed `+15` event for X, zero edges) the first recompute
yields `newScore(X) = 15` and marks the event processed; immediately re-running
recompute does not re-apply the event (the result is not 30) and yields
`newScore(X) = 0`.  In general, a cycle on a state whose events are all
processed leaves the events untouched and computes the very scores it would
compute with no events at all. -/
theorem c2_events_consumed_once :
    ((recalculate [] ["X"] ⟨[⟨"e1", "X", 15, 0, none⟩], [("X", 0)]⟩ 1000).scores
        = [("X", 15)]
      ∧ (recalculate [] ["X"] ⟨[⟨"e1", "X", 15, 0, none⟩], [("X", 0)]⟩ 1000).events
        = [⟨"e1", "X", 15, 0, some 1000⟩]
      ∧ (recalculate [] ["X"]
          (recalculate [] ["X"] ⟨[⟨"e1", "X", 15, 0, none⟩], [("X", 0)]⟩ 1000) 2000).scores
        = [("X", 0)])
    ∧ (∀ (edges : List InfluenceEdge) (users : List String) (st : RecalcState) (now : ℤ),
        (∀ e ∈ st.events, e.processedAt ≠ none) →
          recalculate edges users st now
            = ⟨st.events, (recalculate edges users ⟨[], st.scores⟩ now).scores⟩) := by
  constructor
  · refine ⟨?_, ?_, ?_⟩ <;>
      norm_num +decide [recalculate, pendingEvents, eventImpact, newScoreFor,
        calculatePropagatedInfluence, buildAdjacencyList, adjPush, aget, aset,
        propagateFromNode, bfsRun, bfsLoop, propagationFuel, queueFuel, entryFuel,
        outDegBound, initEntry, pushCandidates, MIN_WEIGHT_THRESHOLD,
        List.filterMap_cons, List.filter_cons, List.foldl_cons, List.foldl_nil]
  · intro edges users st now h
    have hpend : pendingEvents st.events = [] := by
      rw [pendingEvents, List.filter_eq_nil_iff]
      intro e he
      simp only [Option.isNone_iff_eq_none]
      exact h e he
    simp only [recalculate]
    rw [hpend]
    simp [pendingEvents]

/-- Witness for the consumed-exactly-once claim: a state whose only event is
already processed recomputes as if there were no events, and the event list
is untouched. -/
theorem c2_events_consumed_once_witness :
    recalculate [] ["X"] ⟨[⟨"e2", "X", 15, 0, some 5⟩], [("X", 7)]⟩ 9
      = ⟨[⟨"e2", "X", 15, 0, some 5⟩],
         (recalculate [] ["X"] ⟨([] : List InfluenceEvent), [("X", 7)]⟩ 9).scores⟩ :=
  c2_events_consumed_once.2 [] ["X"] ⟨[⟨"e2", "X", 15, 0, some 5⟩], [("X", 7)]⟩ 9
    (by simp)
